import Mathlib

/-!
Verification of the playback/synchronization core of the boek audiobook client.

The definitions below are shallow embeddings of the TypeScript source:
* `updateProgress`, `mergeProgress` from src/renderer/stores/episodeProgressStore.ts
* `AudioTrackManager` (getGlobalTime, findTrackForTime, getTotalDuration) from
  the AudioTrackManager utility module
* `findTrackForGlobalTime`, `trackTimeToGlobal`, `getGlobalTimeFromAudio`,
  `loadAudioTrackInternal`, `handleEnded` from src/renderer/components/Player.tsx
* `ChapterUtils.enhanceChapters` from src/renderer/utils/chapterUtils.ts

JavaScript numbers are modelled as exact rationals (the spec reasons about the
arithmetic under exact arithmetic); epoch-millisecond timestamps as integers;
JavaScript objects used as string-keyed maps as functions `String → Option _`.
-/

namespace Boek

/-- One progress record, from EpisodeProgressEntry in episodeProgressStore.ts:
`{ id, progress, isFinished, currentTime, duration, updatedAt }`. -/
structure EpisodeProgressEntry where
  id : String
  progress : ℚ
  isFinished : Bool
  currentTime : ℚ
  duration : ℚ
  updatedAt : Int
deriving DecidableEq

/-- The `progress` record of the store: a map from episode id to entry. -/
abbrev ProgressCache := String → Option EpisodeProgressEntry

/-- `updateProgress` (episodeProgressStore.ts lines 45-57): reads the existing
entry; returns unchanged when `existing && existing.updatedAt > entry.updatedAt`;
otherwise writes `entry` under `episodeId` (object spread plus one key). -/
def updateProgress (cache : ProgressCache) (episodeId : String)
    (entry : EpisodeProgressEntry) : ProgressCache :=
  match cache episodeId with
  | some existing =>
    if existing.updatedAt > entry.updatedAt then cache
    else Function.update cache episodeId (some entry)
  | none => Function.update cache episodeId (some entry)

/-- Body of the batch loop of `mergeProgress` (episodeProgressStore.ts lines
62-68): `if (!existing || existing.updatedAt <= entry.updatedAt)` write the
incoming entry into the accumulating record, else keep it. -/
def mergeStep (merged : ProgressCache) (episodeId : String)
    (entry : EpisodeProgressEntry) : ProgressCache :=
  match merged episodeId with
  | some existing =>
    if existing.updatedAt ≤ entry.updatedAt then
      Function.update merged episodeId (some entry)
    else merged
  | none => Function.update merged episodeId (some entry)

/-- `mergeProgress` (episodeProgressStore.ts lines 59-71): fold `mergeStep` over
`Object.entries(entries)` starting from a copy of the stored record. -/
def mergeProgress (cache : ProgressCache)
    (entries : List (String × EpisodeProgressEntry)) : ProgressCache :=
  entries.foldl (fun merged kv => mergeStep merged kv.1 kv.2) cache

/-- The replacement condition the spec states for the reconciler:
`stored == null || stored.updatedAtEpochMs <= entry.updatedAtEpochMs`. -/
def replaces (stored : Option EpisodeProgressEntry)
    (entry : EpisodeProgressEntry) : Bool :=
  match stored with
  | none => true
  | some s => s.updatedAt ≤ entry.updatedAt

theorem mergeStep_eq_updateProgress (cache : ProgressCache) (k : String)
    (e : EpisodeProgressEntry) : mergeStep cache k e = updateProgress cache k e := by
  cases h : cache k with
  | none => simp [mergeStep, updateProgress, h]
  | some s =>
    by_cases hle : s.updatedAt ≤ e.updatedAt
    · simp [mergeStep, updateProgress, h, hle, (show ¬ e.updatedAt < s.updatedAt by omega)]
    · simp [mergeStep, updateProgress, h, hle, (show e.updatedAt < s.updatedAt by omega)]

theorem updateProgress_apply_self (cache : ProgressCache) (k : String)
    (e : EpisodeProgressEntry) :
    updateProgress cache k e k = if replaces (cache k) e then some e else cache k := by
  cases h : cache k with
  | none => simp [updateProgress, replaces, h, Function.update]
  | some s =>
    by_cases hle : s.updatedAt ≤ e.updatedAt
    · simp [updateProgress, replaces, h, hle, (show ¬ e.updatedAt < s.updatedAt by omega),
        Function.update]
    · simp [updateProgress, replaces, h, hle, (show e.updatedAt < s.updatedAt by omega)]

theorem updateProgress_apply_other (cache : ProgressCache) (k k' : String)
    (e : EpisodeProgressEntry) (hne : k' ≠ k) :
    updateProgress cache k e k' = cache k' := by
  cases h : cache k with
  | none => simp [updateProgress, h, Function.update, hne]
  | some s =>
    by_cases hle : s.updatedAt > e.updatedAt
    · simp [updateProgress, h, hle]
    · simp [updateProgress, h, hle, Function.update, hne]

theorem mergeProgress_singleton (cache : ProgressCache) (k : String)
    (e : EpisodeProgressEntry) :
    mergeProgress cache [(k, e)] = updateProgress cache k e := by
  simp [mergeProgress, mergeStep_eq_updateProgress]

theorem updateProgress_stale (cache : ProgressCache) (k : String)
    (e s : EpisodeProgressEntry) (h : cache k = some s)
    (hlt : e.updatedAt < s.updatedAt) : updateProgress cache k e = cache := by
  simp [updateProgress, h, hlt]

theorem mergeProgress_apply_not_mem :
    ∀ (entries : List (String × EpisodeProgressEntry)) (cache : ProgressCache)
      (k : String), k ∉ entries.map Prod.fst → mergeProgress cache entries k = cache k := by
  intro entries
  induction entries with
  | nil => intro cache k _; rfl
  | cons kv rest ih =>
    intro cache k hk
    have hne : k ≠ kv.1 := by
      intro hkk; exact hk (by simp [hkk])
    have hrest : k ∉ rest.map Prod.fst := by
      intro hmem; exact hk (by simp [hmem])
    have hstep : mergeStep cache kv.1 kv.2 k = cache k := by
      rw [mergeStep_eq_updateProgress]
      exact updateProgress_apply_other cache kv.1 k kv.2 hne
    calc mergeProgress cache (kv :: rest) k
        = mergeProgress (mergeStep cache kv.1 kv.2) rest k := rfl
      _ = mergeStep cache kv.1 kv.2 k := ih _ k hrest
      _ = cache k := hstep

theorem mergeProgress_apply_stale :
    ∀ (entries : List (String × EpisodeProgressEntry)) (cache : ProgressCache)
      (k : String) (s : EpisodeProgressEntry), cache k = some s →
      (∀ kv ∈ entries, kv.1 = k → kv.2.updatedAt < s.updatedAt) →
      mergeProgress cache entries k = cache k := by
  intro entries
  induction entries with
  | nil => intro cache k s _ _; rfl
  | cons kv rest ih =>
    intro cache k s hs hstale
    by_cases hkk : kv.1 = k
    · have hlt : kv.2.updatedAt < s.updatedAt := hstale kv (by simp) hkk
      have hstep : mergeStep cache kv.1 kv.2 = cache := by
        rw [mergeStep_eq_updateProgress, hkk]
        exact updateProgress_stale cache k kv.2 s hs hlt
      calc mergeProgress cache (kv :: rest) k
          = mergeProgress (mergeStep cache kv.1 kv.2) rest k := rfl
        _ = mergeProgress cache rest k := by rw [hstep]
        _ = cache k := ih cache k s hs (fun kv hm => hstale kv (by simp [hm]))
    · have hstep : mergeStep cache kv.1 kv.2 k = cache k := by
        rw [mergeStep_eq_updateProgress]
        exact updateProgress_apply_other cache kv.1 k kv.2 (fun h => hkk h.symm)
      have hs2 : mergeStep cache kv.1 kv.2 k = some s := by rw [hstep, hs]
      calc mergeProgress cache (kv :: rest) k
          = mergeProgress (mergeStep cache kv.1 kv.2) rest k := rfl
        _ = mergeStep cache kv.1 kv.2 k :=
            ih _ k s hs2 (fun kv hm => hstale kv (by simp [hm]))
        _ = cache k := hstep

/-- Claim C1: for every key and every incoming progress entry, both the
single-entry merge (updateProgress) and the batch merge (mergeProgress) replace
the stored entry for the key exactly when no entry is stored or the stored
updatedAt is less than or equal to the incoming updatedAt (so an entry with an
equal timestamp overwrites), and the two code paths implement the same
replacement condition. -/
theorem reconciler_replace_iff (cache : ProgressCache) (k : String)
    (e : EpisodeProgressEntry) :
    updateProgress cache k e k =
      (if replaces (cache k) e then some e else cache k)
    ∧ mergeProgress cache [(k, e)] k =
      (if replaces (cache k) e then some e else cache k)
    ∧ (replaces (cache k) e = true ↔
        cache k = none ∨ ∃ s, cache k = some s ∧ s.updatedAt ≤ e.updatedAt)
    ∧ updateProgress cache k e = mergeProgress cache [(k, e)]
    ∧ ∀ entries : List (String × EpisodeProgressEntry),
        mergeProgress cache entries =
          entries.foldl (fun c kv => updateProgress c kv.1 kv.2) cache := by
  refine ⟨updateProgress_apply_self cache k e, ?_, ?_, ?_, ?_⟩
  · rw [mergeProgress_singleton]; exact updateProgress_apply_self cache k e
  · cases h : cache k with
    | none => simp [replaces]
    | some s => simp [replaces]
  · rw [mergeProgress_singleton]
  · intro entries
    unfold mergeProgress
    congr 1
    funext c kv
    exact mergeStep_eq_updateProgress c kv.1 kv.2

/-- Claim C6: the reconciler merge is idempotent (applying the same entry twice
equals applying it once), an entry strictly older than the stored one is a
no-op, and for the sequence A (updatedAt 100), B (updatedAt 200), A again
(updatedAt 100) on one key starting from an untracked key, the final stored
entry equals B; in both the updateProgress and the mergeProgress path. -/
theorem reconciler_idempotent_monotone (cache : ProgressCache) (k : String)
    (e a b : EpisodeProgressEntry) :
    updateProgress (updateProgress cache k e) k e = updateProgress cache k e
    ∧ mergeProgress (mergeProgress cache [(k, e)]) [(k, e)] =
        mergeProgress cache [(k, e)]
    ∧ (∀ s, cache k = some s → e.updatedAt < s.updatedAt →
        updateProgress cache k e = cache ∧ mergeProgress cache [(k, e)] = cache)
    ∧ (cache k = none → a.updatedAt = 100 → b.updatedAt = 200 →
        updateProgress (updateProgress (updateProgress cache k a) k b) k a =
          updateProgress (updateProgress cache k a) k b
        ∧ updateProgress (updateProgress (updateProgress cache k a) k b) k a k =
            some b
        ∧ mergeProgress (mergeProgress (mergeProgress cache [(k, a)]) [(k, b)])
            [(k, a)] k = some b) := by
  have hidem : updateProgress (updateProgress cache k e) k e =
      updateProgress cache k e := by
    cases h : cache k with
    | none =>
      simp [updateProgress, h, Function.update_same, Function.update_idem]
    | some s =>
      by_cases hgt : e.updatedAt < s.updatedAt
      · simp [updateProgress, h, hgt]
      · simp [updateProgress, h, hgt, Function.update_same, Function.update_idem]
  refine ⟨hidem, ?_, ?_, ?_⟩
  · rw [mergeProgress_singleton, mergeProgress_singleton]; exact hidem
  · intro s hs hlt
    exact ⟨updateProgress_stale cache k e s hs hlt, by
      rw [mergeProgress_singleton]; exact updateProgress_stale cache k e s hs hlt⟩
  · intro hnone ha hb
    have h1 : updateProgress cache k a = Function.update cache k (some a) := by
      simp [updateProgress, hnone]
    have h2 : updateProgress (Function.update cache k (some a)) k b =
        Function.update cache k (some b) := by
      simp [updateProgress, Function.update_same, ha, hb, Function.update_idem]
    have h3 : updateProgress (Function.update cache k (some b)) k a =
        Function.update cache k (some b) := by
      simp [updateProgress, Function.update_same, ha, hb]
    refine ⟨by rw [h1, h2, h3], by rw [h1, h2, h3, Function.update_same], ?_⟩
    rw [mergeProgress_singleton, mergeProgress_singleton, mergeProgress_singleton,
      h1, h2, h3, Function.update_same]

/-- Concrete entry with timestamp 100, for witnesses. -/
def entryT100 : EpisodeProgressEntry := ⟨"ep", 0, false, 0, 0, 100⟩

/-- Concrete entry with timestamp 200, for witnesses. -/
def entryT200 : EpisodeProgressEntry := ⟨"ep", 1/2, false, 60, 120, 200⟩

/-- The empty progress cache, for witnesses. -/
def emptyCache : ProgressCache := fun _ => none

theorem reconciler_idempotent_monotone_witness :
    emptyCache "ep" = none
    ∧ entryT100.updatedAt = 100 ∧ entryT200.updatedAt = 200
    ∧ updateProgress (updateProgress (updateProgress emptyCache "ep" entryT100)
        "ep" entryT200) "ep" entryT100 "ep" = some entryT200
    ∧ updateProgress emptyCache "ep" entryT200 "ep" = some entryT200
    ∧ entryT100.updatedAt < entryT200.updatedAt
    ∧ updateProgress (updateProgress emptyCache "ep" entryT200) "ep" entryT100 =
        updateProgress emptyCache "ep" entryT200 := by
  have h6 := (reconciler_idempotent_monotone emptyCache "ep" entryT100 entryT100
    entryT200).2.2.2 rfl rfl rfl
  have hup : updateProgress emptyCache "ep" entryT200 "ep" = some entryT200 := by
    rw [(reconciler_replace_iff emptyCache "ep" entryT200).1]; rfl
  have hstale := ((reconciler_idempotent_monotone
      (updateProgress emptyCache "ep" entryT200) "ep" entryT100 entryT100
      entryT200).2.2.1 entryT200 hup (by decide)).1
  exact ⟨rfl, rfl, rfl, h6.2.1, hup, by decide, hstale⟩

/-- Claim C10: batch merge modifies only the keys it accepts: a key absent from
the batch keeps its stored entry, a key whose every incoming batch entry is
strictly older than the stored entry keeps its stored entry, and updateProgress
for one episode id never changes the entry stored under any other key. -/
theorem reconciler_frame (cache : ProgressCache)
    (entries : List (String × EpisodeProgressEntry)) (k : String) :
    (k ∉ entries.map Prod.fst → mergeProgress cache entries k = cache k)
    ∧ (∀ s, cache k = some s →
        (∀ kv ∈ entries, kv.1 = k → kv.2.updatedAt < s.updatedAt) →
        mergeProgress cache entries k = cache k)
    ∧ (∀ (k' : String) (e : EpisodeProgressEntry), k ≠ k' →
        updateProgress cache k' e k = cache k) := by
  refine ⟨fun h => mergeProgress_apply_not_mem entries cache k h,
    fun s hs hst => mergeProgress_apply_stale entries cache k s hs hst,
    fun k' e hne => updateProgress_apply_other cache k' k e hne⟩

/-- A one-entry cache holding entryT200 under key ep, for witnesses. -/
def cacheT200 : ProgressCache :=
  fun key => if key = "ep" then some entryT200 else none

theorem reconciler_frame_witness :
    ("other" ∉ ([("ep", entryT100)] : List (String × EpisodeProgressEntry)).map
        Prod.fst)
    ∧ mergeProgress cacheT200 [("ep", entryT100)] "other" = cacheT200 "other"
    ∧ cacheT200 "ep" = some entryT200
    ∧ mergeProgress cacheT200 [("ep", entryT100)] "ep" = cacheT200 "ep"
    ∧ updateProgress cacheT200 "ep" entryT100 "other" = cacheT200 "other" := by
  have h := reconciler_frame cacheT200 [("ep", entryT100)] "other"
  have h2 := reconciler_frame cacheT200 [("ep", entryT100)] "ep"
  refine ⟨by decide, h.1 (by decide), rfl, ?_, ?_⟩
  · exact h2.2.1 entryT200 rfl (by intro kv hm hk; simp at hm; rw [hm]; decide)
  · exact h.2.2 "ep" entryT100 (by decide)

/-- One audio segment, from AudioTrack in playerTypes:
`{ index, title, duration, startOffset, contentUrl }`. -/
structure AudioTrack where
  index : Int
  title : String
  duration : ℚ
  startOffset : ℚ
  contentUrl : String
deriving DecidableEq, Inhabited

/-- startOffset of the track at position i (tracks[i].startOffset). -/
def offs (tracks : List AudioTrack) (i : Nat) : ℚ :=
  (tracks.getD i default).startOffset

/-- duration of the track at position i (tracks[i].duration). -/
def dur (tracks : List AudioTrack) (i : Nat) : ℚ :=
  (tracks.getD i default).duration

/-- End of the track at position i: tracks[i].startOffset + tracks[i].duration. -/
def trackEndAt (tracks : List AudioTrack) (i : Nat) : ℚ :=
  offs tracks i + dur tracks i

/-- The track-list invariant stated by the spec: the first track starts at
offset 0, tracks are contiguous (startOffset[i+1] = startOffset[i] +
duration[i]) and ordered (durations are nonnegative). -/
def Contiguous (tracks : List AudioTrack) : Prop :=
  offs tracks 0 = 0 ∧
  ∀ i < tracks.length, 0 ≤ dur tracks i ∧
    (i + 1 < tracks.length →
      offs tracks (i + 1) = offs tracks i + dur tracks i)

instance (tracks : List AudioTrack) : Decidable (Contiguous tracks) := by
  unfold Contiguous; infer_instance

/-- AudioTrackManager.getGlobalTime (AudioTrackManager lines 28-36): an
out-of-bounds track index logs an error and returns 0; otherwise returns
track.startOffset + trackTime. -/
def getGlobalTime (tracks : List AudioTrack) (trackIndex : Int)
    (trackTime : ℚ) : ℚ :=
  if trackIndex < 0 ∨ trackIndex ≥ (tracks.length : Int) then 0
  else (tracks.getD trackIndex.toNat default).startOffset + trackTime

/-- trackTimeToGlobal (Player.tsx lines 35-38): with no tracks or an
out-of-bounds index returns trackTime unchanged; otherwise returns
tracks[trackIndex].startOffset + trackTime. -/
def trackTimeToGlobal (tracks : List AudioTrack) (trackIndex : Int)
    (trackTime : ℚ) : ℚ :=
  if tracks.length = 0 ∨ trackIndex < 0 ∨ trackIndex ≥ (tracks.length : Int) then
    trackTime
  else (tracks.getD trackIndex.toNat default).startOffset + trackTime

/-- The while loop of AudioTrackManager.findTrackForTime (lines 49-69): binary
search over [left, right]; mid is Math.floor((left + right) / 2), which for the
Int division of Lean (floor division) is exactly (left + right) / 2. Returns
none when the loop exits with left > right. All reachable calls keep mid inside
[0, tracks.length), where the getD default is never used. -/
def findTrackLoop (tracks : List AudioTrack) (globalTime : ℚ)
    (left right : Int) : Option (Nat × ℚ) :=
  if left ≤ right then
    let mid : Int := (left + right) / 2
    let track := tracks.getD mid.toNat default
    if track.startOffset ≤ globalTime ∧
        globalTime < track.startOffset + track.duration then
      some (mid.toNat, globalTime - track.startOffset)
    else if globalTime < track.startOffset then
      findTrackLoop tracks globalTime left (mid - 1)
    else
      findTrackLoop tracks globalTime (mid + 1) right
  else none
termination_by (right + 1 - left).toNat
decreasing_by
  · omega
  · omega

/-- AudioTrackManager.findTrackForTime (lines 42-77): globalTime <= 0 returns
{0, 0}; otherwise binary search; if the time is beyond all tracks, returns the
last track at its full duration. -/
def findTrackForTime (tracks : List AudioTrack) (globalTime : ℚ) : Nat × ℚ :=
  if globalTime ≤ 0 then (0, 0)
  else
    match findTrackLoop tracks globalTime 0 ((tracks.length : Int) - 1) with
    | some r => r
    | none =>
      (tracks.length - 1, (tracks.getD (tracks.length - 1) default).duration)

/-- The for loop of findTrackForGlobalTime (Player.tsx lines 21-27): linear
scan returning the first track whose [startOffset, startOffset + duration)
contains the time, with its position in the full list. -/
def findTrackScan : List AudioTrack → ℚ → Nat → Option (Nat × ℚ)
  | [], _, _ => none
  | track :: rest, globalTime, i =>
    if track.startOffset ≤ globalTime ∧
        globalTime < track.startOffset + track.duration then
      some (i, globalTime - track.startOffset)
    else findTrackScan rest globalTime (i + 1)

/-- findTrackForGlobalTime (Player.tsx lines 15-32): empty list returns
{0, globalTime}; otherwise linear scan; past the end clamps to the last track
at its full duration. -/
def findTrackForGlobalTime (tracks : List AudioTrack) (globalTime : ℚ) :
    Nat × ℚ :=
  if tracks.length = 0 then (0, globalTime)
  else
    match findTrackScan tracks globalTime 0 with
    | some r => r
    | none =>
      (tracks.length - 1, (tracks.getD (tracks.length - 1) default).duration)

/-- AudioTrackManager.getTotalDuration (lines 82-86): 0 for an empty list, else
lastTrack.startOffset + lastTrack.duration. -/
def getTotalDuration (tracks : List AudioTrack) : ℚ :=
  if tracks.length = 0 then 0
  else offs tracks (tracks.length - 1) + dur tracks (tracks.length - 1)

theorem getD_startOffset (tracks : List AudioTrack) (i : Nat) :
    (tracks.getD i default).startOffset = offs tracks i := rfl

theorem getD_duration (tracks : List AudioTrack) (i : Nat) :
    (tracks.getD i default).duration = dur tracks i := rfl

theorem offs_mono (tracks : List AudioTrack) (hc : Contiguous tracks) :
    ∀ j, j < tracks.length → ∀ i, i ≤ j → offs tracks i ≤ offs tracks j := by
  intro j
  induction j with
  | zero =>
    intro _ i hi
    have : i = 0 := Nat.le_zero.mp hi
    rw [this]
  | succ j ih =>
    intro hj i hi
    have hjn : j < tracks.length := Nat.lt_of_succ_lt hj
    have hstep : offs tracks j ≤ offs tracks (j + 1) := by
      have h := hc.2 j hjn
      rw [h.2 hj]
      linarith [h.1]
    by_cases h : i = j + 1
    · rw [h]
    · exact le_trans (ih hjn i (by omega)) hstep


theorem trackEnd_le_offs (tracks : List AudioTrack) (hc : Contiguous tracks)
    (i j : Nat) (hij : i < j) (hj : j < tracks.length) :
    offs tracks i + dur tracks i ≤ offs tracks j := by
  have hin : i < tracks.length := lt_trans hij hj
  have hi1 : i + 1 < tracks.length := Nat.lt_of_le_of_lt hij hj
  rw [← (hc.2 i hin).2 hi1]
  exact offs_mono tracks hc j hj (i + 1) hij

theorem trackEnd_le_total (tracks : List AudioTrack) (hc : Contiguous tracks)
    (j : Nat) (hj : j < tracks.length) :
    offs tracks j + dur tracks j ≤ getTotalDuration tracks := by
  have hne : tracks.length ≠ 0 := by omega
  rw [getTotalDuration, if_neg hne]
  by_cases hlast : j = tracks.length - 1
  · rw [hlast]
  · have hjlt : j < tracks.length - 1 := by omega
    have h1 := trackEnd_le_offs tracks hc j (tracks.length - 1) hjlt (by omega)
    have h2 := (hc.2 (tracks.length - 1) (by omega)).1
    linarith

theorem findTrackLoop_finds (tracks : List AudioTrack) (t : ℚ)
    (hc : Contiguous tracks) :
    ∀ (fuel : Nat) (left right : Int), (right + 1 - left).toNat ≤ fuel →
    0 ≤ left → right < (tracks.length : Int) →
    (∃ k : Nat, left ≤ (k : Int) ∧ (k : Int) ≤ right ∧
      offs tracks k ≤ t ∧ t < offs tracks k + dur tracks k) →
    ∃ m : Nat, findTrackLoop tracks t left right =
        some (m, t - offs tracks m) ∧ m < tracks.length ∧
        offs tracks m ≤ t ∧ t < offs tracks m + dur tracks m := by
  intro fuel
  induction fuel with
  | zero =>
    intro left right hf h0 hr hex
    obtain ⟨k, hk1, hk2, _, _⟩ := hex
    omega
  | succ fuel ih =>
    intro left right hf h0 hr hex
    obtain ⟨k, hk1, hk2, hks, hke⟩ := hex
    have hkn : k < tracks.length := by omega
    have hlr : left ≤ right := le_trans hk1 hk2
    rw [findTrackLoop, if_pos hlr]
    simp only [getD_startOffset, getD_duration]
    have hmb : left ≤ (left + right) / 2 ∧ (left + right) / 2 ≤ right := by omega
    have hmid0 : 0 ≤ (left + right) / 2 := le_trans h0 hmb.1
    have hmidn : ((left + right) / 2).toNat < tracks.length := by omega
    by_cases hcont : offs tracks ((left + right) / 2).toNat ≤ t ∧
        t < offs tracks ((left + right) / 2).toNat +
          dur tracks ((left + right) / 2).toNat
    · rw [if_pos hcont]
      exact ⟨((left + right) / 2).toNat, rfl, hmidn, hcont.1, hcont.2⟩
    · rw [if_neg hcont]
      by_cases hlt : t < offs tracks ((left + right) / 2).toNat
      · rw [if_pos hlt]
        refine ih left ((left + right) / 2 - 1) (by omega) h0 (by omega)
          ⟨k, hk1, ?_, hks, hke⟩
        by_contra hge
        have hge2 : ((left + right) / 2).toNat ≤ k := by omega
        have := offs_mono tracks hc k hkn ((left + right) / 2).toNat hge2
        linarith
      · rw [if_neg hlt]
        have hge : offs tracks ((left + right) / 2).toNat +
            dur tracks ((left + right) / 2).toNat ≤ t := by
          rcases not_and_or.mp hcont with h | h
          · exact absurd (le_of_not_lt hlt) h
          · exact le_of_not_lt h
        refine ih ((left + right) / 2 + 1) right (by omega) (by omega) hr
          ⟨k, ?_, hk2, hks, hke⟩
        by_contra hlt2
        have hle : k ≤ ((left + right) / 2).toNat := by omega
        by_cases heq : k = ((left + right) / 2).toNat
        · rw [heq] at hke; linarith
        · have hklt : k < ((left + right) / 2).toNat := by omega
          have := trackEnd_le_offs tracks hc k ((left + right) / 2).toNat hklt hmidn
          have hot := le_of_not_lt hlt
          linarith

theorem exists_containing_aux (tracks : List AudioTrack)
    (hc : Contiguous tracks) (t : ℚ)
    (hlt : t < offs tracks (tracks.length - 1) + dur tracks (tracks.length - 1)) :
    ∀ (d j : Nat), tracks.length - j ≤ d → j < tracks.length →
    offs tracks j ≤ t →
    ∃ k, k < tracks.length ∧ offs tracks k ≤ t ∧
      t < offs tracks k + dur tracks k := by
  intro d
  induction d with
  | zero => intro j hd hj _; omega
  | succ d ih =>
    intro j hd hj hoj
    by_cases hin : t < offs tracks j + dur tracks j
    · exact ⟨j, hj, hoj, hin⟩
    · have hend : offs tracks j + dur tracks j ≤ t := le_of_not_lt hin
      have hjne : j ≠ tracks.length - 1 := by
        intro h; rw [h] at hend; linarith
      have hj1 : j + 1 < tracks.length := by omega
      refine ih (j + 1) (by omega) hj1 ?_
      rw [(hc.2 j hj).2 hj1]
      exact hend

theorem exists_containing (tracks : List AudioTrack) (hc : Contiguous tracks)
    (t : ℚ) (hne : tracks ≠ []) (h0 : 0 ≤ t)
    (hlt : t < getTotalDuration tracks) :
    ∃ k, k < tracks.length ∧ offs tracks k ≤ t ∧
      t < offs tracks k + dur tracks k := by
  have hlen : tracks.length ≠ 0 := fun h => hne (List.eq_nil_of_length_eq_zero h)
  rw [getTotalDuration, if_neg hlen] at hlt
  refine exists_containing_aux tracks hc t hlt tracks.length 0 (by omega)
    (by omega) ?_
  rw [hc.1]; exact h0

/-- Claim C2: for a non-empty contiguous track list whose first track starts at
offset 0 and any globalTime in [0, totalDuration), composing findTrackForTime
(locate) with getGlobalTime (toGlobal) reproduces globalTime exactly, under
the exact rational arithmetic of this embedding. -/
theorem locate_toGlobal_inverse (tracks : List AudioTrack) (t : ℚ)
    (hne : tracks ≠ []) (hc : Contiguous tracks)
    (h0 : 0 ≤ t) (hlt : t < getTotalDuration tracks) :
    getGlobalTime tracks ((findTrackForTime tracks t).1 : Int)
      (findTrackForTime tracks t).2 = t := by
  have hlen : tracks.length ≠ 0 := fun h => hne (List.eq_nil_of_length_eq_zero h)
  by_cases ht0 : t ≤ 0
  · have ht : t = 0 := le_antisymm ht0 h0
    rw [findTrackForTime, if_pos ht0]
    rw [getGlobalTime, if_neg (by push_neg; constructor <;> omega)]
    simp only [getD_startOffset]
    rw [show ((0 : Nat) : Int).toNat = 0 from rfl, hc.1, ht, add_zero]
  · obtain ⟨k, hk, hks, hke⟩ := exists_containing tracks hc t hne h0 hlt
    obtain ⟨m, hmeq, hm, hms, hme⟩ := findTrackLoop_finds tracks t hc
      tracks.length 0 ((tracks.length : Int) - 1) (by omega) (by omega)
      (by omega) ⟨k, by omega, by omega, hks, hke⟩
    rw [findTrackForTime, if_neg ht0, hmeq]
    rw [getGlobalTime, if_neg (by push_neg; constructor <;> omega)]
    simp only [getD_startOffset]
    rw [Int.toNat_natCast]
    ring

theorem findTrackLoop_none (tracks : List AudioTrack) (t : ℚ)
    (hc : Contiguous tracks) :
    ∀ (fuel : Nat) (left right : Int), (right + 1 - left).toNat ≤ fuel →
    0 ≤ left → right < (tracks.length : Int) →
    (∀ j : Nat, left ≤ (j : Int) → (j : Int) ≤ right →
      offs tracks j + dur tracks j ≤ t) →
    findTrackLoop tracks t left right = none := by
  intro fuel
  induction fuel with
  | zero =>
    intro left right hf h0 hr hall
    rw [findTrackLoop, if_neg (by omega)]
  | succ fuel ih =>
    intro left right hf h0 hr hall
    by_cases hlr : left ≤ right
    · rw [findTrackLoop, if_pos hlr]
      simp only [getD_startOffset, getD_duration]
      have hmb : left ≤ (left + right) / 2 ∧ (left + right) / 2 ≤ right := by omega
      have hmid0 : 0 ≤ (left + right) / 2 := le_trans h0 hmb.1
      have hmidn : ((left + right) / 2).toNat < tracks.length := by omega
      have hend : offs tracks ((left + right) / 2).toNat +
          dur tracks ((left + right) / 2).toNat ≤ t :=
        hall ((left + right) / 2).toNat (by omega) (by omega)
      have hdnn : 0 ≤ dur tracks ((left + right) / 2).toNat :=
        (hc.2 ((left + right) / 2).toNat hmidn).1
      rw [if_neg (by intro h; linarith [h.2])]
      rw [if_neg (by intro h; linarith)]
      exact ih ((left + right) / 2 + 1) right (by omega) (by omega) hr
        (fun j h1 h2 => hall j (by omega) h2)
    · rw [findTrackLoop, if_neg hlr]

theorem findTrackForTime_past_end (tracks : List AudioTrack) (t : ℚ)
    (hne : tracks ≠ []) (hc : Contiguous tracks)
    (hge : getTotalDuration tracks ≤ t) (hpos : 0 < t) :
    findTrackForTime tracks t =
      (tracks.length - 1, dur tracks (tracks.length - 1)) := by
  have hlen : tracks.length ≠ 0 := fun h => hne (List.eq_nil_of_length_eq_zero h)
  rw [findTrackForTime, if_neg (by linarith)]
  rw [findTrackLoop_none tracks t hc tracks.length 0 ((tracks.length : Int) - 1)
    (by omega) (by omega) (by omega)
    (fun j h1 h2 => le_trans (trackEnd_le_total tracks hc j (by omega)) hge)]
  rw [getD_duration]

theorem findTrackScan_none :
    ∀ (l : List AudioTrack) (t : ℚ) (i : Nat),
    (∀ j, j < l.length → ¬ (offs l j ≤ t ∧ t < offs l j + dur l j)) →
    findTrackScan l t i = none := by
  intro l
  induction l with
  | nil => intro t i _; rfl
  | cons track rest ih =>
    intro t i hall
    have h0 : ¬ (track.startOffset ≤ t ∧
        t < track.startOffset + track.duration) := hall 0 (by simp)
    rw [findTrackScan, if_neg h0]
    exact ih t (i + 1) (fun j hj => hall (j + 1) (by simpa using hj))

theorem offs_cons_succ (track : AudioTrack) (rest : List AudioTrack) (j : Nat) :
    offs (track :: rest) (j + 1) = offs rest j := rfl

theorem dur_cons_succ (track : AudioTrack) (rest : List AudioTrack) (j : Nat) :
    dur (track :: rest) (j + 1) = dur rest j := rfl

theorem findTrackForGlobalTime_no_hit (tracks : List AudioTrack) (t : ℚ)
    (hne : tracks ≠ [])
    (hall : ∀ j, j < tracks.length →
      ¬ (offs tracks j ≤ t ∧ t < offs tracks j + dur tracks j)) :
    findTrackForGlobalTime tracks t =
      (tracks.length - 1, dur tracks (tracks.length - 1)) := by
  have hlen : tracks.length ≠ 0 := fun h => hne (List.eq_nil_of_length_eq_zero h)
  rw [findTrackForGlobalTime, if_neg hlen, findTrackScan_none tracks t 0 hall]
  rw [getD_duration]

/-- Claim C5 (amended): AudioTrackManager.findTrackForTime clamps at both ends
as the claim states: every globalTime ≤ 0 yields {0, 0} (so locate at -5 equals
locate at 0), and every positive globalTime at or beyond the end of the last
track yields the last index at its full duration. The Player helper
findTrackForGlobalTime clamps only at the top end: it yields the last-track
clamp for any globalTime at or beyond the end, it yields {0, 0} at
globalTime = 0 when the first track has positive duration, but it maps every
strictly negative globalTime to the last-track clamp, not to {0, 0}: its
callers clamp times to be nonnegative before calling it. -/
theorem locate_clamping (tracks : List AudioTrack) (t : ℚ)
    (hne : tracks ≠ []) (hc : Contiguous tracks) :
    (t ≤ 0 → findTrackForTime tracks t = (0, 0)
      ∧ findTrackForTime tracks t = findTrackForTime tracks 0)
    ∧ (getTotalDuration tracks ≤ t → 0 < t →
        findTrackForTime tracks t =
          (tracks.length - 1, dur tracks (tracks.length - 1)))
    ∧ (getTotalDuration tracks ≤ t →
        findTrackForGlobalTime tracks t =
          (tracks.length - 1, dur tracks (tracks.length - 1)))
    ∧ (0 < dur tracks 0 → findTrackForGlobalTime tracks 0 = (0, 0))
    ∧ (t < 0 →
        findTrackForGlobalTime tracks t =
          (tracks.length - 1, dur tracks (tracks.length - 1))) := by
  have hlen : tracks.length ≠ 0 := fun h => hne (List.eq_nil_of_length_eq_zero h)
  refine ⟨?_, ?_, ?_, ?_, ?_⟩
  · intro ht
    constructor
    · rw [findTrackForTime, if_pos ht]
    · rw [findTrackForTime, if_pos ht, findTrackForTime, if_pos le_rfl]
  · exact findTrackForTime_past_end tracks t hne hc
  · intro hge
    refine findTrackForGlobalTime_no_hit tracks t hne (fun j hj h => ?_)
    have := trackEnd_le_total tracks hc j hj
    linarith [h.2]
  · intro hd0
    obtain ⟨track, rest, htr⟩ : ∃ a l, tracks = a :: l := by
      cases tracks with
      | nil => exact absurd rfl hne
      | cons a l => exact ⟨a, l, rfl⟩
    subst htr
    have h0 : track.startOffset = 0 := hc.1
    rw [findTrackForGlobalTime, if_neg hlen, findTrackScan,
      if_pos ⟨by rw [h0], by rw [h0, zero_add]; exact hd0⟩, h0, sub_zero]
  · intro hneg
    refine findTrackForGlobalTime_no_hit tracks t hne (fun j hj h => ?_)
    have hnn : (0 : ℚ) ≤ offs tracks j := by
      have := offs_mono tracks hc j hj 0 (Nat.zero_le j)
      rw [hc.1] at this
      exact this
    linarith [h.1]

/-- A concrete single-track list for counterexamples: one track of duration 10
starting at offset 0. -/
def singleTrack10 : List AudioTrack := [⟨0, "trackA", 10, 0, "url"⟩]

/-- Claim C5 counterexample: the claim asserts that both implementations send
every globalTime ≤ 0 to {trackIndex 0, trackTime 0}; the Player helper
findTrackForGlobalTime instead maps -5 on a single 10-second track to the
last-track clamp {0, 10}. -/
theorem locate_clamping_counterexample :
    findTrackForGlobalTime singleTrack10 (-5) = (0, 10)
    ∧ ¬ findTrackForGlobalTime singleTrack10 (-5) = (0, 0) := by
  constructor
  · rfl
  · intro h
    have h2 : (10 : ℚ) = 0 := congrArg Prod.snd h
    norm_num at h2

theorem locate_clamping_witness :
    (singleTrack10 ≠ [] ∧ Contiguous singleTrack10
      ∧ getTotalDuration singleTrack10 ≤ 12 ∧ (0 : ℚ) < 12
      ∧ (0 : ℚ) < dur singleTrack10 0 ∧ (-5 : ℚ) < 0)
    ∧ findTrackForTime singleTrack10 (-5) = (0, 0)
    ∧ findTrackForTime singleTrack10 12 = (0, dur singleTrack10 0)
    ∧ findTrackForGlobalTime singleTrack10 12 = (0, dur singleTrack10 0)
    ∧ findTrackForGlobalTime singleTrack10 0 = (0, 0)
    ∧ findTrackForGlobalTime singleTrack10 (-5) = (0, dur singleTrack10 0) := by
  have htot : getTotalDuration singleTrack10 ≤ 12 := by
    norm_num [getTotalDuration, singleTrack10, offs, dur]
  have h5 := locate_clamping singleTrack10 (-5) (by decide) (by decide)
  have h12 := locate_clamping singleTrack10 12 (by decide) (by decide)
  exact ⟨⟨by decide, by decide, htot, by decide, by decide, by decide⟩,
    (h5.1 (by decide)).1,
    h12.2.1 htot (by decide),
    h12.2.2.1 htot,
    h12.2.2.2.1 (by decide),
    h5.2.2.2.2 (by decide)⟩

theorem locate_toGlobal_inverse_witness :
    (singleTrack10 ≠ [] ∧ Contiguous singleTrack10 ∧ (0 : ℚ) ≤ 7
      ∧ (7 : ℚ) < getTotalDuration singleTrack10)
    ∧ getGlobalTime singleTrack10 ((findTrackForTime singleTrack10 7).1 : Int)
        (findTrackForTime singleTrack10 7).2 = 7 := by
  have htot : (7 : ℚ) < getTotalDuration singleTrack10 := by
    norm_num [getTotalDuration, singleTrack10, offs, dur]
  exact ⟨⟨by decide, by decide, by decide, htot⟩,
    locate_toGlobal_inverse singleTrack10 7 (by decide) (by decide) (by decide)
      htot⟩

/-- Claim C4 (amended): for an out-of-bounds track index the two
implementations differ: the Player helper trackTimeToGlobal returns
relativeTime unchanged, but AudioTrackManager.getGlobalTime logs an error and
returns 0, not relativeTime. For an in-bounds index both return
tracks[index].startOffset + relativeTime. -/
theorem toGlobal_bounds (tracks : List AudioTrack) (trackIndex : Int) (rt : ℚ) :
    (trackIndex < 0 ∨ (tracks.length : Int) ≤ trackIndex →
      getGlobalTime tracks trackIndex rt = 0
      ∧ trackTimeToGlobal tracks trackIndex rt = rt)
    ∧ (0 ≤ trackIndex → trackIndex < (tracks.length : Int) →
      getGlobalTime tracks trackIndex rt = offs tracks trackIndex.toNat + rt
      ∧ trackTimeToGlobal tracks trackIndex rt =
          offs tracks trackIndex.toNat + rt) := by
  constructor
  · intro hoob
    constructor
    · rw [getGlobalTime, if_pos (by omega)]
    · rw [trackTimeToGlobal, if_pos (by omega)]
  · intro h0 hlt
    constructor
    · rw [getGlobalTime, if_neg (by omega), getD_startOffset]
    · rw [trackTimeToGlobal, if_neg (by push_neg; refine ⟨by omega, h0, hlt⟩),
        getD_startOffset]

/-- Claim C4 counterexample: the claim asserts that getGlobalTime returns
relativeTime unchanged on an out-of-bounds index; on a single-track list with
index 2 and relativeTime 5 it returns 0, not 5. -/
theorem toGlobal_counterexample :
    getGlobalTime singleTrack10 2 5 = 0
    ∧ ¬ getGlobalTime singleTrack10 2 5 = 5 := by
  constructor
  · rfl
  · intro h
    norm_num [getGlobalTime, singleTrack10] at h

theorem toGlobal_bounds_witness :
    ((2 : Int) < 0 ∨ ((singleTrack10.length : Int) ≤ 2)
      ∧ (0 : Int) ≤ 0 ∧ (0 : Int) < (singleTrack10.length : Int))
    ∧ getGlobalTime singleTrack10 2 5 = 0
    ∧ trackTimeToGlobal singleTrack10 2 5 = 5
    ∧ getGlobalTime singleTrack10 0 5 = offs singleTrack10 0 + 5
    ∧ trackTimeToGlobal singleTrack10 0 5 = offs singleTrack10 0 + 5 := by
  have hoob := (toGlobal_bounds singleTrack10 2 5).1 (by decide)
  have hin := (toGlobal_bounds singleTrack10 0 5).2 (by decide) (by decide)
  exact ⟨by decide, hoob.1, hoob.2, hin.1, hin.2⟩

/-- One chapter, from Chapter in api.ts: { id, start, end, title }. -/
structure Chapter where
  id : Int
  start : ℚ
  «end» : ℚ
  title : String
deriving DecidableEq

/-- Output of ChapterUtils.enhanceChapters, from EnhancedChapter in
playerTypes: the chapter fields plus duration, the clamped completion
fraction, isCompleted, and the owning track index for multi-track items (the
JS findIndex result, -1 when no track contains the chapter start). -/
structure EnhancedChapter where
  id : Int
  start : ℚ
  «end» : ℚ
  title : String
  duration : ℚ
  progress : ℚ
  isCompleted : Bool
  trackIndex : Option Int
deriving DecidableEq

/-- ChapterUtils.enhanceChapters (chapterUtils.ts lines 8-40): per chapter,
duration = end - start; isActive when start <= currentTime < end; progress is
the fraction when active, else 1 when currentTime > end, else 0; the stored
progress is clamped to [0, 1]; isCompleted compares the unclamped progress
with 0.95; trackIndex is computed only when audioTracks.length > 1. -/
def enhanceChapters (chapters : List Chapter) (currentTime : ℚ)
    (audioTracks : List AudioTrack) : List EnhancedChapter :=
  chapters.map fun chapter =>
    let duration := chapter.«end» - chapter.start
    let isActive := chapter.start ≤ currentTime ∧ currentTime < chapter.«end»
    let progress : ℚ :=
      if isActive then (currentTime - chapter.start) / duration
      else if chapter.«end» < currentTime then 1
      else 0
    let trackIndex : Option Int :=
      if 1 < audioTracks.length then
        some (match audioTracks.findIdx? (fun track =>
            decide (track.startOffset ≤ chapter.start ∧
              chapter.start < track.startOffset + track.duration)) with
          | some i => (i : Int)
          | none => -1)
      else none
    ⟨chapter.id, chapter.start, chapter.«end», chapter.title, duration,
      max 0 (min 1 progress), decide ((0.95 : ℚ) ≤ progress), trackIndex⟩

theorem enhanceChapters_progress_closed_form (c : Chapter) (t : ℚ)
    (tracks : List AudioTrack) :
    (enhanceChapters [c] t tracks).map EnhancedChapter.progress =
      [max 0 (min 1
        (if c.start ≤ t ∧ t < c.«end» then (t - c.start) / (c.«end» - c.start)
         else if c.«end» < t then 1 else 0))] := rfl

/-- Claim C3 failing input, evaluated on the code: for the chapter [0, 10) the
completion fraction computed by enhanceChapters is 99/100 at time 9.9, then 0
at time exactly 10 (the chapter end), then 1 at time 11. The claim (and the
spec) say the fraction is 1 at time = end and non-decreasing in time; the code
computes 0 there because its else-branch tests currentTime > chapter.end
strictly, so the fraction drops from 99/100 to 0 at the end boundary and the
chapter is not marked completed at its own end. -/
theorem enhanceChapters_progress_at_end :
    (enhanceChapters [⟨1, 0, 10, "Ch1"⟩] (99/10) []).map EnhancedChapter.progress
        = [99/100]
    ∧ (enhanceChapters [⟨1, 0, 10, "Ch1"⟩] 10 []).map EnhancedChapter.progress
        = [0]
    ∧ (enhanceChapters [⟨1, 0, 10, "Ch1"⟩] 11 []).map EnhancedChapter.progress
        = [1]
    ∧ (enhanceChapters [⟨1, 0, 10, "Ch1"⟩] 10 []).map EnhancedChapter.isCompleted
        = [false] := by
  refine ⟨?_, ?_, ?_, ?_⟩ <;>
    norm_num [enhanceChapters, max_def, min_def]

/-- isMultiTrack (Player.tsx lines 41-43): tracks.length > 1. -/
def isMultiTrack (tracks : List AudioTrack) : Bool := 1 < tracks.length

/-- The session-local state that the deferred load callbacks can touch: the
media element position, the store currentTime, whether playback has been
requested, the track-transition flag, what the store says about playing, and
the surfaced error message. -/
structure LoadState where
  mediaCurrentTime : ℚ
  storeCurrentTime : ℚ
  playRequested : Bool
  transitioning : Bool
  isPlaying : Bool
  errorMsg : Option String
deriving DecidableEq

/-- The body of one deferred load callback, read off Player.tsx:
setMediaTime is the loadedmetadata seek of loadAudioTrackInternal (line 198);
setStoreTime is the loadedmetadata resume-position handler of the single-track
path (lines 407-414); resumeIfPlaying is the canplay handler of
loadAudioTrackInternal (lines 211-222, also clears the transition flag) and
the canplaythrough handler of the single-track path (lines 424-433);
setLoadError is the error handler (lines 395-401). -/
inductive LoadEffect where
  | setMediaTime : ℚ → LoadEffect
  | setStoreTime : ℚ → LoadEffect
  | resumeIfPlaying : LoadEffect
  | setLoadError : String → LoadEffect
deriving DecidableEq

/-- A deferred callback as registered by the load path: its body, and the load
generation it checks on entry, if any. Handlers that begin with
`if (loadGenerationRef.current !== generation) return;` carry some g;
handlers with no such check carry none. -/
structure DeferredCallback where
  generationGuard : Option Nat
  effect : LoadEffect
deriving DecidableEq

def applyEffect (s : LoadState) : LoadEffect → LoadState
  | .setMediaTime t => { s with mediaCurrentTime := t }
  | .setStoreTime t => { s with mediaCurrentTime := t, storeCurrentTime := t }
  | .resumeIfPlaying => { s with playRequested := s.isPlaying, transitioning := false }
  | .setLoadError m => { s with errorMsg := some m }

/-- Firing a deferred callback when the live load generation is
currentGeneration: a guarded callback whose recorded generation differs
returns without touching the state; any other callback runs its body. -/
def fireCallback (currentGeneration : Nat) (s : LoadState)
    (cb : DeferredCallback) : LoadState :=
  match cb.generationGuard with
  | some g => if g ≠ currentGeneration then s else applyEffect s cb.effect
  | none => applyEffect s cb.effect

/-- The deferred callbacks registered by loadAudioTrackInternal (Player.tsx
lines 162-225), the track-loading path used for multi-track items: the
loadedmetadata seek handler (registered when seekToTime is defined and
nonnegative) and the canplay resume handler. Neither carries a generation
guard. -/
def loadAudioTrackInternalCallbacks (seekToTime : Option ℚ) :
    List DeferredCallback :=
  (match seekToTime with
   | some t => if 0 ≤ t then [⟨none, .setMediaTime t⟩] else []
   | none => []) ++ [⟨none, .resumeIfPlaying⟩]

/-- The deferred callbacks registered by the single-track path of loadTrack
(Player.tsx lines 388-435): the error handler, the initial-time
loadedmetadata handler (when resuming past 0) and the canplaythrough handler,
each guarded by the generation captured at line 298. -/
def loadTrackSingleCallbacks (generation : Nat) (initialTime : Option ℚ) :
    List DeferredCallback :=
  [⟨some generation, .setLoadError "Failed to load audio file"⟩] ++
  (match initialTime with
   | some t => if 0 < t then [⟨some generation, .setStoreTime t⟩] else []
   | none => []) ++
  [⟨some generation, .resumeIfPlaying⟩]

theorem fireCallback_guarded_stale (currentGeneration g : Nat) (s : LoadState)
    (e : LoadEffect) (hne : g ≠ currentGeneration) :
    fireCallback currentGeneration s ⟨some g, e⟩ = s := by
  simp [fireCallback, hne]

theorem loadTrackSingleCallbacks_stale_noop (generation currentGeneration : Nat)
    (initialTime : Option ℚ) (s : LoadState)
    (hne : generation ≠ currentGeneration) :
    ∀ cb ∈ loadTrackSingleCallbacks generation initialTime,
      fireCallback currentGeneration s cb = s := by
  intro cb hcb
  rcases cb with ⟨g, e⟩
  have hg : g = some generation := by
    rcases initialTime with _ | t
    · simp only [loadTrackSingleCallbacks, List.nil_append, List.cons_append,
        List.mem_cons, List.mem_singleton, List.not_mem_nil] at hcb
      rcases hcb with h | h | h
      · exact (DeferredCallback.mk.injEq _ _ _ _).mp h |>.1
      · exact (DeferredCallback.mk.injEq _ _ _ _).mp h |>.1
      · exact absurd h (by simp)
    · by_cases ht : (0 : ℚ) < t
      · simp only [loadTrackSingleCallbacks, if_pos ht, List.cons_append,
          List.nil_append, List.mem_cons, List.mem_singleton,
          List.not_mem_nil] at hcb
        rcases hcb with h | h | h | h
        · exact (DeferredCallback.mk.injEq _ _ _ _).mp h |>.1
        · exact (DeferredCallback.mk.injEq _ _ _ _).mp h |>.1
        · exact (DeferredCallback.mk.injEq _ _ _ _).mp h |>.1
        · exact absurd h (by simp)
      · simp only [loadTrackSingleCallbacks, if_neg ht, List.cons_append,
          List.nil_append, List.mem_cons, List.mem_singleton,
          List.not_mem_nil] at hcb
        rcases hcb with h | h | h
        · exact (DeferredCallback.mk.injEq _ _ _ _).mp h |>.1
        · exact (DeferredCallback.mk.injEq _ _ _ _).mp h |>.1
        · exact absurd h (by simp)
  rw [hg]
  exact fireCallback_guarded_stale currentGeneration generation s e hne

/-- A quiescent pre-callback state, for the claim C7 failing input. -/
def initialLoadState : LoadState := ⟨0, 0, false, false, false, none⟩

/-- A pre-callback state in which the store says playing, for the claim C7
failing input. -/
def playingLoadState : LoadState := ⟨0, 0, false, true, true, none⟩

/-- Claim C7 failing input, evaluated on the code: the loadedmetadata seek
callback that a multi-track load X registers through loadAudioTrackInternal
(here with seekToTime 42) carries no generation guard, so after a newer load Y
raises the generation to 2 the stale callback still runs and moves the media
element to 42; likewise the stale unguarded canplay callback requests playback
and clears the transition flag of the newer session. Only the single-track
path discards stale completions (loadTrackSingleCallbacks_stale_noop). -/
theorem stale_multitrack_callback_applied :
    ((⟨none, .setMediaTime 42⟩ : DeferredCallback) ∈
        loadAudioTrackInternalCallbacks (some 42))
    ∧ fireCallback 2 initialLoadState ⟨none, .setMediaTime 42⟩ ≠ initialLoadState
    ∧ (fireCallback 2 initialLoadState ⟨none, .setMediaTime 42⟩).mediaCurrentTime
        = 42
    ∧ ((⟨none, .resumeIfPlaying⟩ : DeferredCallback) ∈
        loadAudioTrackInternalCallbacks (some 42))
    ∧ (fireCallback 2 playingLoadState ⟨none, .resumeIfPlaying⟩).playRequested
        = true
    ∧ (fireCallback 2 playingLoadState ⟨none, .resumeIfPlaying⟩).transitioning
        = false := by
  refine ⟨by decide, ?_, by decide, by decide, by decide, by decide⟩
  intro h
  have := congrArg LoadState.mediaCurrentTime h
  norm_num [fireCallback, applyEffect, initialLoadState] at this

/-- The externally visible steps handleEnded takes, in order: an immediate
progress sync at a given global time (the absApi.updateProgress call), loading
a given track at a given track-relative time (loadAudioTrackInternal),
resuming playback (the play() call of the canplay handler), and setting
isPlaying to false. -/
inductive EndedEffect where
  | syncNow : ℚ → EndedEffect
  | loadTrackAt : Nat → ℚ → EndedEffect
  | resumePlayback : EndedEffect
  | setIsPlayingFalse : EndedEffect
deriving DecidableEq

/-- The effect trace of loadAudioTrackInternal (Player.tsx lines 162-225) as
invoked from handleEnded: load the requested track seeking to the requested
track-relative time, then, on canplay, resume playback exactly when the store
still says playing. -/
def loadAudioTrackInternalTrace (trackIndex : Nat) (seekToTime : ℚ)
    (isPlaying : Bool) : List EndedEffect :=
  [.loadTrackAt trackIndex seekToTime] ++
    (if isPlaying then [.resumePlayback] else [])

/-- handleEnded (Player.tsx lines 563-583): on the natural end event, with
fresh store state, if the item has more than one track and the current track
is not the last, first (when both session refs are live) issue an immediate
sync at the end offset of the just-completed track, then load the next track
at relative time 0; otherwise set isPlaying to false and load nothing. -/
def handleEnded (tracks : List AudioTrack) (currentTrackIndex : Nat)
    (sessionActive : Bool) (isPlaying : Bool) : List EndedEffect :=
  if 1 < tracks.length ∧ currentTrackIndex < tracks.length - 1 then
    (if sessionActive then
      [.syncNow (offs tracks currentTrackIndex + dur tracks currentTrackIndex)]
     else []) ++
    loadAudioTrackInternalTrace (currentTrackIndex + 1) 0 isPlaying
  else [.setIsPlayingFalse]

/-- Claim C8: on natural end-of-segment with an active session, when the
current track is not the last of a multi-track item, handleEnded issues an
immediate sync at the end offset (startOffset + duration) of the completed
track, then loads the next track at track-relative time 0, and resumes
playback exactly when the session was playing; when the current track is the
last, or the item is single-track, it sets isPlaying to false and loads
nothing. -/
theorem handleEnded_spec (tracks : List AudioTrack) (idx : Nat)
    (playing : Bool) :
    (1 < tracks.length → idx < tracks.length - 1 →
      handleEnded tracks idx true playing =
        [.syncNow (offs tracks idx + dur tracks idx), .loadTrackAt (idx + 1) 0]
          ++ (if playing then [.resumePlayback] else []))
    ∧ (tracks.length ≤ 1 ∨ tracks.length - 1 ≤ idx →
      ∀ sessionActive, handleEnded tracks idx sessionActive playing =
        [.setIsPlayingFalse]) := by
  constructor
  · intro h1 h2
    rw [handleEnded, if_pos ⟨h1, h2⟩]
    rfl
  · intro h sessionActive
    rw [handleEnded, if_neg (by omega)]

/-- Two concrete contiguous tracks of durations 300 and 280, for witnesses. -/
def twoTracks : List AudioTrack :=
  [⟨0, "trackA", 300, 0, "urlA"⟩, ⟨1, "trackB", 280, 300, "urlB"⟩]

theorem handleEnded_spec_witness :
    (1 < twoTracks.length ∧ 0 < twoTracks.length - 1
      ∧ twoTracks.length - 1 ≤ 1)
    ∧ handleEnded twoTracks 0 true true =
        [.syncNow (offs twoTracks 0 + dur twoTracks 0), .loadTrackAt 1 0,
          .resumePlayback]
    ∧ handleEnded twoTracks 1 true true = [.setIsPlayingFalse] := by
  have h0 := (handleEnded_spec twoTracks 0 true).1 (by decide) (by decide)
  have h1 := (handleEnded_spec twoTracks 1 true).2 (by decide) true
  exact ⟨⟨by decide, by decide, by decide⟩, h0, h1⟩

/-- The inputs getGlobalTimeFromAudio reads (Player.tsx lines 112-122):
whether the audio element exists, the transition flag
isTransitioningTrackRef, the currentTime of the player store, the currentTime
of the media element, and the track list and current track index. During a
track transition the store currentTime still holds the pre-transition global
time, because loadAudioTrackInternal never writes it. -/
structure PlayerTimeState where
  audioPresent : Bool
  transitioning : Bool
  storeCurrentTime : ℚ
  mediaCurrentTime : ℚ
  audioTracks : List AudioTrack
  currentTrackIndex : Int
deriving DecidableEq

/-- getGlobalTimeFromAudio (Player.tsx lines 112-122): 0 without an audio
element; the store currentTime while the transition flag is set; otherwise
the media element time, converted through trackTimeToGlobal for multi-track
items. -/
def getGlobalTimeFromAudio (s : PlayerTimeState) : ℚ :=
  if s.audioPresent = false then 0
  else if s.transitioning = true then s.storeCurrentTime
  else if isMultiTrack s.audioTracks then
    trackTimeToGlobal s.audioTracks s.currentTrackIndex s.mediaCurrentTime
  else s.mediaCurrentTime

/-- Claim C9: with an audio element present, while the transition flag is set
(it is raised when loadAudioTrackInternal starts and cleared by its canplay
handler, see loadAudioTrackInternalCallbacks) the current-global-time query
returns the stored pre-transition time from the player store and is
independent of the media element time; outside a transition it returns the
media element time converted through the current track offset for
multi-track items, and the raw media time otherwise. -/
theorem getGlobalTimeFromAudio_spec (s : PlayerTimeState)
    (hp : s.audioPresent = true) :
    (s.transitioning = true →
      getGlobalTimeFromAudio s = s.storeCurrentTime
      ∧ ∀ m : ℚ, getGlobalTimeFromAudio { s with mediaCurrentTime := m } =
          getGlobalTimeFromAudio s)
    ∧ (s.transitioning = false →
      getGlobalTimeFromAudio s =
        if isMultiTrack s.audioTracks then
          trackTimeToGlobal s.audioTracks s.currentTrackIndex s.mediaCurrentTime
        else s.mediaCurrentTime) := by
  constructor
  · intro ht
    constructor
    · simp [getGlobalTimeFromAudio, hp, ht]
    · intro m
      simp [getGlobalTimeFromAudio, hp, ht]
  · intro ht
    simp [getGlobalTimeFromAudio, hp, ht]

/-- A transitioning player state over twoTracks, for the claim C9 witness. -/
def transitioningState : PlayerTimeState := ⟨true, true, 451, 0, twoTracks, 1⟩

/-- A settled player state over twoTracks, for the claim C9 witness. -/
def settledState : PlayerTimeState := ⟨true, false, 451, 151, twoTracks, 1⟩

theorem getGlobalTimeFromAudio_spec_witness :
    (transitioningState.audioPresent = true
      ∧ transitioningState.transitioning = true
      ∧ settledState.audioPresent = true
      ∧ settledState.transitioning = false)
    ∧ getGlobalTimeFromAudio transitioningState =
        transitioningState.storeCurrentTime
    ∧ getGlobalTimeFromAudio
        { transitioningState with mediaCurrentTime := 999 } =
        getGlobalTimeFromAudio transitioningState
    ∧ getGlobalTimeFromAudio settledState =
        (if isMultiTrack settledState.audioTracks then
          trackTimeToGlobal settledState.audioTracks
            settledState.currentTrackIndex settledState.mediaCurrentTime
         else settledState.mediaCurrentTime) := by
  have ht := (getGlobalTimeFromAudio_spec transitioningState rfl).1 rfl
  have hs := (getGlobalTimeFromAudio_spec settledState rfl).2 rfl
  exact ⟨⟨rfl, rfl, rfl, rfl⟩, ht.1, ht.2 999, hs⟩

end Boek
